import Mathlib

/-!
Verification development for the measurement-driven pagination engine of the
n8n-service repository (`src/services/paginationService.js`, v3.0 variant,
together with `src/utils/textUtils.js` and the comment preprocessing in
`src/services/imageGenerator.js`).

JavaScript strings are embedded as `List Char` (BMP code points; JS iterates
UTF-16 code units, which coincides with code points on the BMP text this
service handles).  Rendered pixel heights are embedded as rationals `ℚ`
(browser heights may be fractional).  The rendering/measurement collaborator
is embedded as an explicit `Oracle` of functions; calls that may throw are
`Option`-valued (`none` = the awaited call threw), matching the `try/catch`
structure of the source.  Loops are embedded with an explicit fuel parameter
set at the call site to the bound that the termination argument of the source
provides; the termination theorems below show this fuel suffices.
-/

/-- A JavaScript string, embedded as its list of characters. -/
abbrev Text := List Char

/-- ASCII whitespace as used by `String.prototype.trim` on the texts this
service handles (space, tab, newline, carriage return, vertical tab, form
feed).  Unicode space classes are not used by the repository's data. -/
def jsIsSpace (c : Char) : Bool :=
  c == ' ' || c == '\t' || c == '\n' || c == '\r' || c == '\x0b' || c == '\x0c'

/-- Embeds `s.trim().length === 0`: every character is whitespace. -/
def isBlank (s : Text) : Bool := s.all jsIsSpace

/-- Embeds `s.trim()`: drop whitespace from both ends. -/
def jsTrim (s : Text) : Text :=
  ((s.dropWhile jsIsSpace).reverse.dropWhile jsIsSpace).reverse

/-- Embeds `s.split(sep)` for a single-character-class separator, with JavaScript
semantics: `"".split(x) = [""]`, adjacent separators yield empty pieces. -/
def splitOnP (p : Char → Bool) : Text → List Text
  | [] => [[]]
  | x :: xs =>
    match splitOnP p xs with
    | [] => [[]]
    | q :: qs => if p x then [] :: q :: qs else (x :: q) :: qs

/-- Embeds `s.split('\n')`. -/
def splitNL (s : Text) : List Text := splitOnP (fun c => c == '\n') s

/-- Embeds `l.join('\n')` (generalised over the separator character). -/
def joinWithChar (c : Char) : List Text → Text
  | [] => []
  | [s] => s
  | s :: rest => s ++ c :: joinWithChar c rest

/-- Embeds `l.join('\n')`. -/
def joinNL (l : List Text) : Text := joinWithChar '\n' l

/-- Embeds `text.split('\n').filter(p => p.trim().length > 0)` — the paragraphizer
used for post bodies (paginationService.js lines 102-103) and comment bodies
(line 170). -/
def splitParagraphs (s : Text) : List Text :=
  (splitNL s).filter (fun p => !(isBlank p))

/-- Flat map over a list (the queue-building `push(...items)` pattern). -/
def flatMapL (f : α → List β) : List α → List β
  | [] => []
  | x :: xs => f x ++ flatMapL f xs

/-- JavaScript `a || b` on strings: `''` is falsy. -/
def jsOr (a b : Text) : Text := if a = [] then b else a

/-! ### Text classifier and tokenizer (`src/utils/textUtils.js`) -/

/-- Embeds `isChinese`: membership in the CJK unified ideograph range
`[一-鿿]`. -/
def isChinese (c : Char) : Bool := 0x4e00 ≤ c.toNat && c.toNat ≤ 0x9fff

/-- Embeds `isEnglish`: `[a-zA-Z]`. -/
def isEnglish (c : Char) : Bool :=
  ('a' ≤ c && c ≤ 'z') || ('A' ≤ c && c ≤ 'Z')

/-- Embeds `isPunctuation`: the fixed ASCII and full-width punctuation set
`[,.!?;:，。！？；：、]`. -/
def isPunct (c : Char) : Bool :=
  c == ',' || c == '.' || c == '!' || c == '?' || c == ';' || c == ':' ||
  c == '，' || c == '。' || c == '！' || c == '？' || c == '；' || c == '：' || c == '、'

/-- The five character classes of the tokenizer. -/
inductive CharType where
  | chinese | english | space | punct | other
deriving DecidableEq, Repr

/-- Per-character classification, in source order (textUtils.js lines 103-113). -/
def classify (c : Char) : CharType :=
  if isChinese c then .chinese
  else if isEnglish c then .english
  else if c = ' ' then .space
  else if isPunct c then .punct
  else .other

/-- Loop state of `smartSplit`: accumulated result, current run, last type. -/
structure SpState where
  res : List Text
  cur : Text
  last : Option CharType

/-- One iteration of the `smartSplit` character loop
(textUtils.js lines 99-145): the type-transition branch chain followed by the
single-character post-processing of wide (`chinese`) characters. -/
def spStep (st : SpState) (ch : Char) : SpState :=
  let ct := classify ch
  let push := fun (r : List Text) (cur : Text) =>
    if isBlank cur then r else r ++ [cur]
  let st1 : List Text × Text :=
    match st.last with
    | none => (st.res, st.cur ++ [ch])
    | some lt =>
      if lt = ct then (st.res, st.cur ++ [ch])
      else if lt = CharType.english ∧ ct = CharType.space then (st.res, st.cur ++ [ch])
      else if lt = CharType.space ∧ ct = CharType.english then (st.res, st.cur ++ [ch])
      else if ct = CharType.chinese then (push st.res st.cur, [ch])
      else if lt = CharType.chinese then (push st.res st.cur, [ch])
      else (st.res, st.cur ++ [ch])
  let st2 : List Text × Text :=
    if ct = CharType.chinese ∧ 1 < st1.2.length then (st1.1 ++ [st1.2.dropLast], [ch])
    else st1
  ⟨st2.1, st2.2, some ct⟩

/-- Embeds `smartSplit(text)` (textUtils.js lines 94-152): run the character loop,
flush the final run, drop blank words. -/
def smartSplit (t : Text) : List Text :=
  let st := t.foldl spStep ⟨[], [], none⟩
  let res := if isBlank st.cur then st.res else st.res ++ [st.cur]
  res.filter (fun w => !(isBlank w))

/-! ### Sentence-aware re-chunker (`smartSplitText`, paginationService.js
lines 166-205) -/

/-- Sentence-terminal punctuation of the regex `[。！？.!?]`. -/
def isSentenceEnd (c : Char) : Bool :=
  c == '。' || c == '！' || c == '？' || c == '.' || c == '!' || c == '?'

/-- The greedy sentence re-packing loop (lines 181-193): accumulate sentences
with a `。` appended; flush the trimmed buffer when it would exceed 150
characters. -/
def repackLoop : List Text → Text → List Text
  | [], cur => if isBlank cur then [] else [jsTrim cur]
  | s :: rest, cur =>
    let pot := cur ++ s ++ ['。']
    if 150 < pot.length ∧ 0 < cur.length then jsTrim cur :: repackLoop rest (s ++ ['。'])
    else repackLoop rest pot

/-- Per-segment treatment inside the long-text branch (lines 176-199):
segments over 200 characters are split into sentences and re-packed when more
than one sentence results. -/
def splitLongSegment (seg : Text) : List Text :=
  if 200 < seg.length then
    if 1 < ((splitOnP isSentenceEnd seg).filter (fun s => !(isBlank s))).length then
      repackLoop ((splitOnP isSentenceEnd seg).filter (fun s => !(isBlank s))) []
    else [seg]
  else [seg]

/-- Embeds `smartSplitText(text)` (lines 166-205): newline paragraphs, further split
when at most 2 paragraphs but more than 500 characters of text. -/
def smartSplitText (text : Text) : List Text :=
  if text = [] then []
  else if (splitParagraphs text).length ≤ 2 ∧ 500 < text.length then
    flatMapL splitLongSegment (splitParagraphs text)
  else splitParagraphs text

/-! ### Data model -/

/-- A comment as it flows through pagination: author, bilingual body, score,
continuation flag (set only on Splitter chunks).  Fields the pagination never
reads (`parent_id`, `icon_img`) are omitted; they are only spread-copied. -/
structure Comment where
  author : Text
  body : Text
  body_zh : Text
  ups : Int
  isContinuation : Bool
deriving DecidableEq, Repr

/-- A post as consumed by `paginate`. -/
structure Post where
  id : Text
  title : Text
  title_zh : Text
  title_polish_zh : Text
  selftext : Text
  selftext_zh : Text
  subreddit : Text
  ups : Int
  commentList : List Comment
deriving DecidableEq, Repr

/-- An emitted page.  `main` content fields are `Option` because the default
main page (lines 112-115 and 398-407) carries no content fields at all. -/
inductive Page where
  | main (title : Text) (title_zh : Text) (ups : Int) (subreddit : Text)
      (content_zh : Option Text) (content : Option Text)
  | main_continued (title : Text) (title_zh : Text) (ups : Int) (subreddit : Text)
      (content_zh : Text) (content : Text)
  | comments (comments : List Comment) (title : Text)
deriving DecidableEq, Repr

/-- The comments carried by a page (empty for main pages). -/
def pageCommentsOf : Page → List Comment
  | .comments l _ => l
  | _ => []

/-- The default-script content carried by a page. -/
def pageContentEn : Page → Text
  | .main _ _ _ _ _ c => c.getD []
  | .main_continued _ _ _ _ _ c => c
  | .comments _ _ => []

/-- The translated-track content carried by a page. -/
def pageContentZh : Page → Text
  | .main _ _ _ _ c _ => c.getD []
  | .main_continued _ _ _ _ c _ => c
  | .comments _ _ => []

/-- The injected rendering/measurement collaborator.  `mainHeight` embeds
`renderHTML('main-card', …)` followed by `measureContentHeight(html,
'.main-content')` as a function of the varying content fields (the remaining
page fields are fixed for a given post); `commentHeight` embeds the
`comment-card` single-comment measurement and `pageHeight` the `comment-card`
page measurement of `.comments-section`.  `none` means the awaited call
threw; `measureContentHeight` itself converts missing-element faults to a
`0` height. -/
structure Oracle where
  mainHeight : Text → Text → ℚ
  commentHeight : Comment → Option ℚ
  pageHeight : List Comment → Text → Option ℚ

/-- Embeds `MAX_HEIGHT_MAIN_CONTENT` (line 11). -/
def MAX_HEIGHT_MAIN_CONTENT : ℚ := 800

/-- Embeds `MAX_HEIGHT_COMMENTS` (line 12). -/
def MAX_HEIGHT_COMMENTS : ℚ := 900

/-- Embeds `MAX_HEIGHT_SINGLE_COMMENT` (line 13). -/
def MAX_HEIGHT_SINGLE_COMMENT : ℚ := 870

/-! ### The Height-Constrained Fitter (binary search, lines 122-145 and
222-259) -/

/-- The binary-search loop with a total measurement: `low`/`high`/`best_fit_size`
as in lines 124-141.  `measure k` is the rendered height of the first `k`
items of each queue; the probe succeeds when the height is positive and
within `limit`.  The interval `[lo, hi]` shrinks every iteration, so a fuel
of `hi + 1 - lo` (the callers pass `n + 1`) makes the fuel bound
unreachable. -/
def searchLoopT (measure : Nat → ℚ) (limit : ℚ) : Nat → Nat → Nat → Nat → Nat
  | 0, _, _, best => best
  | fuel + 1, lo, hi, best =>
    if lo ≤ hi then
      if (lo + hi) / 2 = 0 then searchLoopT measure limit fuel 1 hi best
      else if 0 < measure ((lo + hi) / 2) ∧ measure ((lo + hi) / 2) ≤ limit then
        searchLoopT measure limit fuel ((lo + hi) / 2 + 1) hi ((lo + hi) / 2)
      else searchLoopT measure limit fuel lo ((lo + hi) / 2 - 1) best
    else best

/-- A whole Fitter invocation with a total measurement over queues of maximal
length `n`: binary search from `[1, n]` followed by the forced-minimum
`best_fit_size = 1` (lines 143-145). -/
def fitChunkT (measure : Nat → ℚ) (limit : ℚ) (n : Nat) : Nat :=
  let best := searchLoopT measure limit (n + 1) 1 n 0
  if best = 0 then 1 else best

/-- The binary-search loop with a measurement that may throw (`none`); a
throw aborts the enclosing computation, as in `splitComment` where no catch
surrounds the probes. -/
def searchLoopO (measure : Nat → Option ℚ) (limit : ℚ) :
    Nat → Nat → Nat → Nat → Option Nat
  | 0, _, _, best => some best
  | fuel + 1, lo, hi, best =>
    if lo ≤ hi then
      if (lo + hi) / 2 = 0 then searchLoopO measure limit fuel 1 hi best
      else
        match measure ((lo + hi) / 2) with
        | none => none
        | some ht =>
          if 0 < ht ∧ ht ≤ limit then
            searchLoopO measure limit fuel ((lo + hi) / 2 + 1) hi ((lo + hi) / 2)
          else searchLoopO measure limit fuel lo ((lo + hi) / 2 - 1) best
    else some best

/-- Fitter invocation with a throwing measurement (the `splitComment` search,
lines 222-259, including the conditional forced minimum of lines 252-259
whose guard always holds under the loop condition). -/
def fitChunkO (measure : Nat → Option ℚ) (limit : ℚ) (n : Nat) : Option Nat :=
  (searchLoopO measure limit (n + 1) 1 n 0).map (fun best => if best = 0 then 1 else best)

/-! ### Main-content pagination (lines 100-161) -/

/-- Embeds `title_zh: post.title_zh || post.title_polish_zh` of `basePageData`. -/
def baseTitleZh (post : Post) : Text := jsOr post.title_zh post.title_polish_zh

/-- The default main page pushed when both paragraph tracks are empty
(lines 112-115) and by the orchestrator fallback (lines 398-407). -/
def defaultMainPage (post : Post) : Page :=
  .main post.title (baseTitleZh post) post.ups post.subreddit none none

/-- The Fitter measurement of `paginateMainContent` (lines 128-133): render
`main-card` with the first `k` remaining paragraphs of each track joined by
newlines and measure `.main-content`. -/
def mainMeasure (o : Oracle) (rzh ren : List Text) (k : Nat) : ℚ :=
  o.mainHeight (joinNL (rzh.take k)) (joinNL (ren.take k))

/-- The `best_fit_size` selected by one Fitter round of
`paginateMainContent` (lines 122-145). -/
def mainChunk (o : Oracle) (rzh ren : List Text) : Nat :=
  fitChunkT (mainMeasure o rzh ren) MAX_HEIGHT_MAIN_CONTENT (max rzh.length ren.length)

/-- The page pushed by one round (lines 150-155): `main` for the first page,
`main_continued` afterwards, with the chunk contents joined by newlines. -/
def mainPageOf (post : Post) (first : Bool) (czh cen : Text) : Page :=
  if first then
    .main post.title (baseTitleZh post) post.ups post.subreddit (some czh) (some cen)
  else
    .main_continued post.title (baseTitleZh post) post.ups post.subreddit czh cen

/-- The `while (remaining_zh.length > 0 || remaining_en.length > 0)` loop of
`paginateMainContent` (lines 121-160).  `fuel` bounds the number of rounds;
each round consumes `best_fit_size ≥ 1` items from both queues, so
`max rzh.length ren.length` rounds always suffice (see the termination
theorem). -/
def mainLoopF (o : Oracle) (post : Post) (first : Bool) :
    Nat → List Text → List Text → List Page
  | 0, _, _ => []
  | fuel + 1, rzh, ren =>
    if rzh = [] ∧ ren = [] then []
    else
      let b := mainChunk o rzh ren
      mainPageOf post first (joinNL (rzh.take b)) (joinNL (ren.take b)) ::
        mainLoopF o post false fuel (rzh.drop b) (ren.drop b)

/-- Embeds `paginateMainContent` (lines 100-161): paragraphize both tracks, push the
default main page when both are empty, otherwise run the Fitter loop. -/
def paginateMainContent (o : Oracle) (post : Post) : List Page :=
  let pzh := splitParagraphs post.selftext_zh
  let pen := splitParagraphs post.selftext
  if pzh = [] ∧ pen = [] then [defaultMainPage post]
  else mainLoopF o post true (max pzh.length pen.length) pzh pen

/-! ### Comment Splitter (lines 207-281) -/

/-- Embeds `{ ...comment, body_zh, body, isContinuation }` — the probe and chunk
construction of `splitComment`. -/
def mkChunk (c : Comment) (bzh ben : Text) (cont : Bool) : Comment :=
  { c with body_zh := bzh, body := ben, isContinuation := cont }

/-- One Fitter invocation of `splitComment` (lines 222-259): binary search
with the single-comment probe built from the first `k` paragraphs of each
track; `none` when a probe threw. -/
def splitChunkO (o : Oracle) (c : Comment) (first : Bool)
    (rzh ren : List Text) : Option Nat :=
  fitChunkO
    (fun k => o.commentHeight (mkChunk c (joinNL (rzh.take k)) (joinNL (ren.take k)) (!first)))
    MAX_HEIGHT_SINGLE_COMMENT (max rzh.length ren.length)

/-- The `while (rem_zh.length > 0 || rem_en.length > 0)` loop of
`splitComment` (lines 221-277); a throwing probe propagates (`none`). -/
def splitLoopF (o : Oracle) (c : Comment) (first : Bool) :
    Nat → List Text → List Text → Option (List Comment)
  | 0, _, _ => some []
  | fuel + 1, rzh, ren =>
    if rzh = [] ∧ ren = [] then some []
    else
      match splitChunkO o c first rzh ren with
      | none => none
      | some b =>
        match splitLoopF o c false fuel (rzh.drop b) (ren.drop b) with
        | none => none
        | some rest =>
          some (mkChunk c (joinNL (rzh.take b)) (joinNL (ren.take b)) (!first) :: rest)

/-- Embeds `splitComment` (lines 207-281): smart-split both tracks, then carve
chunks with the Fitter under `MAX_HEIGHT_SINGLE_COMMENT`. -/
def splitComment (o : Oracle) (c : Comment) : Option (List Comment) :=
  let pzh := smartSplitText c.body_zh
  let pen := smartSplitText c.body
  splitLoopF o c true (max pzh.length pen.length) pzh pen

/-! ### Page Packer and comment pagination (lines 283-378) -/

/-- The per-comment processing loop of `paginateComments` (lines 295-319):
measure the whole comment; split when over `MAX_HEIGHT_SINGLE_COMMENT`; on
any thrown error (`none`), catch and enqueue the comment unmodified. -/
def buildQueue (o : Oracle) : List Comment → List Comment
  | [] => []
  | c :: rest =>
    let processed :=
      match o.commentHeight c with
      | none => [c]
      | some h =>
        if MAX_HEIGHT_SINGLE_COMMENT < h then
          match splitComment o c with
          | none => [c]
          | some chunks => chunks
        else [c]
    processed ++ buildQueue o rest

/-- The inner packing loop (lines 330-358): tentatively append the queue
head, measure the tentative page; commit and dequeue while the height is
positive and within `MAX_HEIGHT_COMMENTS`, breaking at the count cap of 3;
a thrown measurement (`none`) breaks.  Returns the page contents and the
remaining queue. -/
def packPage (o : Oracle) (title : Text) : List Comment → List Comment →
    List Comment × List Comment
  | [], acc => (acc, [])
  | c :: rest, acc =>
    match o.pageHeight (acc ++ [c]) title with
    | none => (acc, c :: rest)
    | some h =>
      if 0 < h ∧ h ≤ MAX_HEIGHT_COMMENTS then
        let acc2 := acc ++ [c]
        if 3 ≤ acc2.length then (acc2, rest)
        else packPage o title rest acc2
      else (acc, c :: rest)

/-- The outer `while (commentQueue.length > 0)` paging loop (lines 325-375),
including the forced dequeue of one comment when a page would be empty
(lines 361-364).  `fuel` bounds the number of pages; each page consumes at
least one comment, so `queue.length` pages always suffice. -/
def packLoopF (o : Oracle) (title : Text) : Nat → List Comment → List Page
  | 0, _ => []
  | fuel + 1, q =>
    match q with
    | [] => []
    | c :: rest =>
      let r := packPage o title (c :: rest) []
      if r.1 = [] then Page.comments [c] title :: packLoopF o title fuel rest
      else Page.comments r.1 title :: packLoopF o title fuel r.2

/-- Embeds `paginateComments` (lines 283-378): build the expanded queue, then pack
pages titled `post.title_zh || post.title`. -/
def paginateComments (o : Oracle) (post : Post) : List Page :=
  if post.commentList = [] then []
  else
    let queue := buildQueue o post.commentList
    packLoopF o (jsOr post.title_zh post.title) queue.length queue

/-- Embeds `paginate` (lines 383-413): main content, then comments, then the
default-page fallback when nothing was emitted. -/
def paginate (o : Oracle) (post : Post) : List Page :=
  let pages := paginateMainContent o post ++ paginateComments o post
  if pages = [] then [defaultMainPage post] else pages

/-! ### Comment preprocessing (`src/services/imageGenerator.js`
lines 225-252) -/

/-- The descending-score order used by `.sort((a, b) => b.ups - a.ups)`. -/
def descUps (a b : Comment) : Prop := b.ups ≤ a.ups

instance : DecidableRel descUps := fun a b => inferInstanceAs (Decidable (b.ups ≤ a.ups))

instance : IsTotal Comment descUps := ⟨fun a b => le_total b.ups a.ups⟩

instance : IsTrans Comment descUps := ⟨fun _ _ _ h1 h2 => le_trans h2 h1⟩

/-- Embeds `preprocessPostData` (imageGenerator.js lines 225-252): filter comments
to non-empty bodies, trim authors, sort by descending score (JavaScript's
sort is stable; a stable sort is embedded).  The scalar field defaults are
identities in this embedding. -/
def preprocessPostData (post : Post) : Post :=
  { post with
    commentList :=
      ((post.commentList.filter (fun c => !(isBlank c.body))).map
        (fun c => { c with author := jsTrim c.author })).insertionSort descUps }

/-! ### Concrete instances used by the counterexamples and witnesses -/

/-- A benign collaborator: every measurement succeeds with height 100. -/
def oraSmall : Oracle :=
  { mainHeight := fun _ _ => 100
    commentHeight := fun _ => some 100
    pageHeight := fun _ _ => some 100 }

/-- A collaborator whose single-comment measurement always throws. -/
def oraThrow : Oracle :=
  { mainHeight := fun _ _ => 100
    commentHeight := fun _ => none
    pageHeight := fun _ _ => some 100 }

/-- A monotone non-decreasing measurement that reports height `0` (the
"element not found" fault value) for the first two prefixes and `700` from
the third prefix on. -/
def mZeroes : Nat → ℚ := fun k => if k ≤ 2 then 0 else 700

/-- A constant measurement of height 100. -/
def mHundred : Nat → ℚ := fun _ => 100

/-- A short comment with score `n`. -/
def mkShortComment (n : Int) : Comment :=
  { author := "u".data, body := "b".data, body_zh := [], ups := n,
    isContinuation := false }

/-- A post with an empty body and 13 non-empty, strictly descending-score
comments. -/
def post13 : Post :=
  { id := "p".data, title := "t".data, title_zh := [], title_polish_zh := [],
    selftext := [], selftext_zh := [], subreddit := "s".data, ups := 5,
    commentList := (List.range 13).map (fun i => mkShortComment (13 - i)) }

/-- A post with empty body tracks and one non-empty comment. -/
def postEmptyBody : Post :=
  { id := "p".data, title := "t".data, title_zh := [], title_polish_zh := [],
    selftext := [], selftext_zh := [], subreddit := "s".data, ups := 5,
    commentList := [mkShortComment 7] }

/-- A comment whose translated body contains a blank line. -/
def cBlankLine : Comment :=
  { author := "a".data, body := [], body_zh := "a\n\nb".data, ups := 0,
    isContinuation := false }

/-- A bounded monotonicity predicate: `m` is non-decreasing on `[1, n]`. -/
def monoOn (m : Nat → ℚ) (n : Nat) : Prop :=
  ∀ k, k ≤ n → ∀ j, j ≤ k → 1 ≤ j → m j ≤ m k

instance monoOnDecidable (m : Nat → ℚ) (n : Nat) : Decidable (monoOn m n) := by
  unfold monoOn
  infer_instance

/-- A tokenizer segment is wide-safe: any wide (CJK) character it contains
is the entire segment. -/
def SegOK (s : Text) : Prop := ∀ c ∈ s, isChinese c = true → s = [c]

/-- Invariant of the `smartSplit` character loop: emitted segments are
wide-safe, the current run is wide-safe, and a wide character can sit in the
current run only when the previous character was wide. -/
def StOK (st : SpState) : Prop :=
  (∀ s ∈ st.res, SegOK s) ∧ SegOK st.cur ∧
  (∀ c ∈ st.cur, isChinese c = true → st.last = some CharType.chinese)

/-! ## Helper lemmas: splitting and joining -/

theorem splitOnP_cons_eq (p : Char → Bool) (x : Char) (xs : Text) (q : Text)
    (qs : List Text) (h : splitOnP p xs = q :: qs) :
    splitOnP p (x :: xs) = if p x then [] :: q :: qs else (x :: q) :: qs := by
  rw [splitOnP, h]

theorem splitOnP_ne_nil (p : Char → Bool) (s : Text) : splitOnP p s ≠ [] := by
  induction s with
  | nil => simp [splitOnP]
  | cons x xs ih =>
    obtain ⟨q, qs, h⟩ := List.exists_cons_of_ne_nil ih
    rw [splitOnP_cons_eq p x xs q qs h]
    split <;> simp

theorem splitOnP_append (p : Char → Bool) (a b : Text) (q : Text) (qs : List Text)
    (hb : splitOnP p b = q :: qs) (ha : ∀ c ∈ a, p c = false) :
    splitOnP p (a ++ b) = (a ++ q) :: qs := by
  induction a with
  | nil => simpa using hb
  | cons x a ih =>
    have hx : p x = false := ha x (by simp)
    have ih2 := ih (fun c hc => ha c (by simp [hc]))
    rw [List.cons_append, splitOnP_cons_eq p x (a ++ b) (a ++ q) qs ih2, hx]
    simp

theorem mem_splitOnP (p : Char → Bool) (s : Text) :
    ∀ t ∈ splitOnP p s, ∀ c ∈ t, p c = false ∧ c ∈ s := by
  induction s with
  | nil =>
    intro t ht c hc
    simp only [splitOnP, List.mem_singleton] at ht
    subst ht
    simp at hc
  | cons x xs ih =>
    intro t ht c hc
    obtain ⟨q, qs, h⟩ := List.exists_cons_of_ne_nil (splitOnP_ne_nil p xs)
    rw [splitOnP_cons_eq p x xs q qs h] at ht
    by_cases hx : p x = true
    · rw [if_pos hx] at ht
      rcases List.mem_cons.mp ht with ht1 | ht1
      · subst ht1; simp at hc
      · have h2 := ih t (h ▸ ht1) c hc
        exact ⟨h2.1, List.mem_cons_of_mem x h2.2⟩
    · rw [if_neg hx] at ht
      rcases List.mem_cons.mp ht with ht1 | ht1
      · subst ht1
        rcases List.mem_cons.mp hc with hc1 | hc1
        · subst hc1
          exact ⟨by simpa using hx, by simp⟩
        · have h2 := ih q (h ▸ List.mem_cons_self q qs) c hc1
          exact ⟨h2.1, List.mem_cons_of_mem x h2.2⟩
      · have h2 := ih t (h ▸ List.mem_cons_of_mem q ht1) c hc
        exact ⟨h2.1, List.mem_cons_of_mem x h2.2⟩

theorem splitOnP_eq_self (p : Char → Bool) (s : Text) (hs : ∀ c ∈ s, p c = false) :
    splitOnP p s = [s] := by
  have := splitOnP_append p s [] [] [] (by simp [splitOnP]) hs
  simpa using this

theorem splitOnP_joinWithChar (p : Char → Bool) (sep : Char) (hsep : p sep = true) :
    ∀ l : List Text, l ≠ [] → (∀ t ∈ l, ∀ c ∈ t, p c = false) →
    splitOnP p (joinWithChar sep l) = l := by
  intro l
  induction l with
  | nil => intro h; exact absurd rfl h
  | cons s l ih =>
    intro _ hl
    cases l with
    | nil =>
      simp only [joinWithChar]
      exact splitOnP_eq_self p s (hl s (by simp))
    | cons t rest =>
      have hjoin : joinWithChar sep (s :: t :: rest) =
          s ++ sep :: joinWithChar sep (t :: rest) := rfl
      rw [hjoin]
      have ihr : splitOnP p (joinWithChar sep (t :: rest)) = t :: rest :=
        ih (by simp) (fun u hu c hc => hl u (by simp [hu]) c hc)
      have hb : splitOnP p (sep :: joinWithChar sep (t :: rest)) = [] :: t :: rest := by
        simp only [splitOnP, ihr, hsep]
        simp
      have := splitOnP_append p s (sep :: joinWithChar sep (t :: rest)) [] (t :: rest) hb
        (fun c hc => (hl s (by simp) c hc))
      simpa using this

theorem splitParagraphs_joinNL (l : List Text)
    (hnl : ∀ t ∈ l, ∀ c ∈ t, (c == '\n') = false) :
    splitParagraphs (joinNL l) = l.filter (fun t => !(isBlank t)) := by
  cases l with
  | nil => rfl
  | cons s rest =>
    rw [splitParagraphs, splitNL, joinNL,
      splitOnP_joinWithChar (fun c => c == '\n') '\n' (by simp) (s :: rest) (by simp) hnl]

theorem splitParagraphs_mem (s t : Text) (h : t ∈ splitParagraphs s) :
    isBlank t = false ∧ ∀ c ∈ t, (c == '\n') = false := by
  rw [splitParagraphs] at h
  have h1 := List.mem_filter.mp h
  refine ⟨by simpa using h1.2, fun c hc => ?_⟩
  exact (mem_splitOnP (fun c => c == '\n') s t h1.1 c hc).1

theorem splitParagraphs_joinNL_parts (l : List Text)
    (hl : ∀ t ∈ l, isBlank t = false ∧ ∀ c ∈ t, (c == '\n') = false) :
    splitParagraphs (joinNL l) = l := by
  rw [splitParagraphs_joinNL l (fun t ht => (hl t ht).2)]
  exact List.filter_eq_self.mpr (fun t ht => by simp [(hl t ht).1])

theorem flatMapL_append (f : α → List β) (a b : List α) :
    flatMapL f (a ++ b) = flatMapL f a ++ flatMapL f b := by
  induction a with
  | nil => rfl
  | cons x a ih => simp [flatMapL, ih]

theorem mem_flatMapL (f : α → List β) (l : List α) (y : β) :
    y ∈ flatMapL f l ↔ ∃ x ∈ l, y ∈ f x := by
  induction l with
  | nil => simp [flatMapL]
  | cons x l ih =>
    simp only [flatMapL, List.mem_append, ih, List.mem_cons]
    constructor
    · rintro (h | ⟨x2, hx2, hy⟩)
      · exact ⟨x, Or.inl rfl, h⟩
      · exact ⟨x2, Or.inr hx2, hy⟩
    · rintro ⟨x2, hx2 | hx2, hy⟩
      · subst hx2; exact Or.inl hy
      · exact Or.inr ⟨x2, hx2, hy⟩

/-! ## Helper lemmas: the Fitter binary search -/

theorem searchLoopT_stop (m : Nat → ℚ) (limit : ℚ) (fuel lo hi best : Nat)
    (h : ¬ lo ≤ hi) : searchLoopT m limit fuel lo hi best = best := by
  cases fuel with
  | zero => rfl
  | succ fuel => rw [searchLoopT, if_neg h]

theorem searchLoopT_step (m : Nat → ℚ) (limit : ℚ) (fuel lo hi best : Nat)
    (h : lo ≤ hi) (hm : ¬ (lo + hi) / 2 = 0) :
    searchLoopT m limit (fuel + 1) lo hi best =
      if 0 < m ((lo + hi) / 2) ∧ m ((lo + hi) / 2) ≤ limit then
        searchLoopT m limit fuel ((lo + hi) / 2 + 1) hi ((lo + hi) / 2)
      else searchLoopT m limit fuel lo ((lo + hi) / 2 - 1) best := by
  rw [searchLoopT, if_pos h, if_neg hm]

theorem searchLoopT_of_none (m : Nat → ℚ) (limit : ℚ) (n : Nat)
    (hnone : ∀ k, 1 ≤ k → k ≤ n → ¬(0 < m k ∧ m k ≤ limit)) :
    ∀ fuel lo hi best, hi + 1 - lo ≤ fuel → 1 ≤ lo → hi ≤ n →
    searchLoopT m limit fuel lo hi best = best := by
  intro fuel
  induction fuel with
  | zero =>
    intro lo hi best hd hlo hhi
    rfl
  | succ d ih =>
    intro lo hi best hd hlo hhi
    by_cases hc : lo ≤ hi
    · have hm : ¬ (lo + hi) / 2 = 0 := by omega
      rw [searchLoopT_step m limit d lo hi best hc hm]
      rw [if_neg (hnone _ (by omega) (by omega))]
      exact ih lo ((lo + hi) / 2 - 1) best (by omega) hlo (by omega)
    · exact searchLoopT_stop m limit (d + 1) lo hi best hc

theorem searchLoopT_finds_max (m : Nat → ℚ) (limit : ℚ) (n K : Nat)
    (hK1 : 1 ≤ K) (hKn : K ≤ n)
    (hPK : 0 < m K ∧ m K ≤ limit)
    (hmaxK : ∀ k, 1 ≤ k → k ≤ n → (0 < m k ∧ m k ≤ limit) → k ≤ K)
    (hdown : ∀ j k, 1 ≤ j → j ≤ k → k ≤ n → (0 < m k ∧ m k ≤ limit) →
      (0 < m j ∧ m j ≤ limit)) :
    ∀ fuel lo hi best, hi + 1 - lo ≤ fuel → 1 ≤ lo → hi ≤ n → lo ≤ K + 1 →
      (K ≤ hi ∨ best = K) → best = min K (lo - 1) →
      searchLoopT m limit fuel lo hi best = K := by
  intro fuel
  induction fuel with
  | zero =>
    intro lo hi best hd hlo hhi hloK hKhi hbest
    show best = K
    omega
  | succ d ih =>
    intro lo hi best hd hlo hhi hloK hKhi hbest
    by_cases hc : lo ≤ hi
    · have hm : ¬ (lo + hi) / 2 = 0 := by omega
      rw [searchLoopT_step m limit d lo hi best hc hm]
      by_cases hP : 0 < m ((lo + hi) / 2) ∧ m ((lo + hi) / 2) ≤ limit
      · rw [if_pos hP]
        have hmidK : (lo + hi) / 2 ≤ K := hmaxK _ (by omega) (by omega) hP
        exact ih ((lo + hi) / 2 + 1) hi ((lo + hi) / 2) (by omega) (by omega) hhi
          (by omega) (by omega) (by omega)
      · rw [if_neg hP]
        have hKmid : K < (lo + hi) / 2 := by
          by_contra hcon
          push_neg at hcon
          exact hP (hdown _ K (by omega) hcon hKn hPK)
        exact ih lo ((lo + hi) / 2 - 1) best (by omega) hlo (by omega) hloK
          (by omega) (by omega)
    · rw [searchLoopT_stop m limit (d + 1) lo hi best hc]
      omega

theorem fitChunkT_eq (m : Nat → ℚ) (limit : ℚ) (n : Nat) :
    fitChunkT m limit n =
      if searchLoopT m limit (n + 1) 1 n 0 = 0 then 1
      else searchLoopT m limit (n + 1) 1 n 0 := rfl

theorem fitChunkT_pos (m : Nat → ℚ) (limit : ℚ) (n : Nat) : 1 ≤ fitChunkT m limit n := by
  rw [fitChunkT_eq]
  split <;> omega

theorem fitChunkO_pos (measure : Nat → Option ℚ) (limit : ℚ) (n b : Nat)
    (h : fitChunkO measure limit n = some b) : 1 ≤ b := by
  rw [fitChunkO] at h
  cases hs : searchLoopO measure limit (n + 1) 1 n 0 with
  | none => rw [hs] at h; simp at h
  | some v =>
    rw [hs] at h
    simp only [Option.map_some'] at h
    rw [Option.some_inj] at h
    subst h
    split <;> omega

/-! ## Helper lemmas: main-content pagination -/

theorem flatMapL_cons (f : α → List β) (x : α) (l : List α) :
    flatMapL f (x :: l) = f x ++ flatMapL f l := rfl

theorem pageContentZh_mainPageOf (post : Post) (first : Bool) (czh cen : Text) :
    pageContentZh (mainPageOf post first czh cen) = czh := by
  cases first <;> rfl

theorem pageContentEn_mainPageOf (post : Post) (first : Bool) (czh cen : Text) :
    pageContentEn (mainPageOf post first czh cen) = cen := by
  cases first <;> rfl

theorem pageCommentsOf_mainPageOf (post : Post) (first : Bool) (czh cen : Text) :
    pageCommentsOf (mainPageOf post first czh cen) = [] := by
  cases first <;> rfl

theorem mainLoopF_cons (o : Oracle) (post : Post) (first : Bool) (fuel : Nat)
    (rzh ren : List Text) (hemp : ¬(rzh = [] ∧ ren = [])) :
    mainLoopF o post first (fuel + 1) rzh ren =
      mainPageOf post first (joinNL (rzh.take (mainChunk o rzh ren)))
          (joinNL (ren.take (mainChunk o rzh ren))) ::
        mainLoopF o post false fuel (rzh.drop (mainChunk o rzh ren))
          (ren.drop (mainChunk o rzh ren)) := by
  rw [mainLoopF, if_neg hemp]

theorem mainChunk_pos (o : Oracle) (rzh ren : List Text) : 1 ≤ mainChunk o rzh ren :=
  fitChunkT_pos _ _ _

theorem mainLoopF_flatten (o : Oracle) (post : Post) :
    ∀ fuel rzh ren first,
      max rzh.length ren.length ≤ fuel →
      (∀ t ∈ rzh, isBlank t = false ∧ ∀ c ∈ t, (c == '\n') = false) →
      (∀ t ∈ ren, isBlank t = false ∧ ∀ c ∈ t, (c == '\n') = false) →
      flatMapL (fun p => splitParagraphs (pageContentZh p))
          (mainLoopF o post first fuel rzh ren) = rzh ∧
      flatMapL (fun p => splitParagraphs (pageContentEn p))
          (mainLoopF o post first fuel rzh ren) = ren := by
  intro fuel
  induction fuel with
  | zero =>
    intro rzh ren first hf hz he
    have hz0 : rzh = [] := List.length_eq_zero.mp (by omega)
    have he0 : ren = [] := List.length_eq_zero.mp (by omega)
    subst hz0; subst he0
    exact ⟨rfl, rfl⟩
  | succ fuel ih =>
    intro rzh ren first hf hz he
    by_cases hemp : rzh = [] ∧ ren = []
    · obtain ⟨h1, h2⟩ := hemp
      subst h1; subst h2
      rw [mainLoopF, if_pos ⟨rfl, rfl⟩]
      exact ⟨rfl, rfl⟩
    · have hb : 1 ≤ mainChunk o rzh ren := mainChunk_pos o rzh ren
      have hdz : (rzh.drop (mainChunk o rzh ren)).length =
          rzh.length - mainChunk o rzh ren := List.length_drop _ rzh
      have hde : (ren.drop (mainChunk o rzh ren)).length =
          ren.length - mainChunk o rzh ren := List.length_drop _ ren
      have ihd := ih (rzh.drop (mainChunk o rzh ren)) (ren.drop (mainChunk o rzh ren))
        false (by omega)
        (fun t ht => hz t (List.mem_of_mem_drop ht))
        (fun t ht => he t (List.mem_of_mem_drop ht))
      have hzt : splitParagraphs (joinNL (rzh.take (mainChunk o rzh ren))) =
          rzh.take (mainChunk o rzh ren) :=
        splitParagraphs_joinNL_parts _ (fun t ht => hz t (List.mem_of_mem_take ht))
      have het : splitParagraphs (joinNL (ren.take (mainChunk o rzh ren))) =
          ren.take (mainChunk o rzh ren) :=
        splitParagraphs_joinNL_parts _ (fun t ht => he t (List.mem_of_mem_take ht))
      rw [mainLoopF_cons o post first fuel rzh ren hemp]
      simp only [flatMapL_cons, pageContentZh_mainPageOf, pageContentEn_mainPageOf,
        hzt, het, ihd.1, ihd.2]
      exact ⟨List.take_append_drop _ rzh, List.take_append_drop _ ren⟩

theorem mainLoopF_comments_nil (o : Oracle) (post : Post) :
    ∀ fuel rzh ren first, ∀ p ∈ mainLoopF o post first fuel rzh ren,
      pageCommentsOf p = [] := by
  intro fuel
  induction fuel with
  | zero => intro rzh ren first p hp; simp [mainLoopF] at hp
  | succ fuel ih =>
    intro rzh ren first p hp
    by_cases hemp : rzh = [] ∧ ren = []
    · rw [mainLoopF, if_pos hemp] at hp
      simp at hp
    · rw [mainLoopF_cons o post first fuel rzh ren hemp] at hp
      rcases List.mem_cons.mp hp with h1 | h1
      · subst h1
        exact pageCommentsOf_mainPageOf post first _ _
      · exact ih _ _ false p h1

theorem mainLoopF_ne_nil (o : Oracle) (post : Post) (fuel : Nat) (rzh ren : List Text)
    (first : Bool) (hemp : ¬(rzh = [] ∧ ren = [])) (hfuel : 1 ≤ fuel) :
    mainLoopF o post first fuel rzh ren ≠ [] := by
  cases fuel with
  | zero => omega
  | succ fuel =>
    rw [mainLoopF_cons o post first fuel rzh ren hemp]
    simp

theorem paginateMainContent_ne_nil (o : Oracle) (post : Post) :
    paginateMainContent o post ≠ [] := by
  rw [paginateMainContent]
  by_cases hemp : splitParagraphs post.selftext_zh = [] ∧ splitParagraphs post.selftext = []
  · rw [if_pos hemp]; simp
  · rw [if_neg hemp]
    exact mainLoopF_ne_nil o post _ _ _ true hemp (by
      rcases not_and_or.mp hemp with h1 | h1
      · have := List.length_pos.mpr h1
        omega
      · have := List.length_pos.mpr h1
        omega)

/-! ## Helper lemmas: the Page Packer -/

theorem pageCommentsOf_comments (l : List Comment) (t : Text) :
    pageCommentsOf (Page.comments l t) = l := rfl

theorem packPage_none (o : Oracle) (title : Text) (c : Comment) (rest acc : List Comment)
    (h : o.pageHeight (acc ++ [c]) title = none) :
    packPage o title (c :: rest) acc = (acc, c :: rest) := by
  rw [packPage, h]

theorem packPage_some (o : Oracle) (title : Text) (c : Comment) (rest acc : List Comment)
    (hh : ℚ) (h : o.pageHeight (acc ++ [c]) title = some hh) :
    packPage o title (c :: rest) acc =
      if 0 < hh ∧ hh ≤ MAX_HEIGHT_COMMENTS then
        (if 3 ≤ (acc ++ [c]).length then (acc ++ [c], rest)
         else packPage o title rest (acc ++ [c]))
      else (acc, c :: rest) := by
  rw [packPage, h]

theorem packPage_split (o : Oracle) (title : Text) :
    ∀ q acc, (packPage o title q acc).1 ++ (packPage o title q acc).2 = acc ++ q := by
  intro q
  induction q with
  | nil => intro acc; simp [packPage]
  | cons c rest ih =>
    intro acc
    cases ho : o.pageHeight (acc ++ [c]) title with
    | none => rw [packPage_none o title c rest acc ho]
    | some hh =>
      rw [packPage_some o title c rest acc hh ho]
      by_cases hfit : 0 < hh ∧ hh ≤ MAX_HEIGHT_COMMENTS
      · rw [if_pos hfit]
        by_cases hlen : 3 ≤ (acc ++ [c]).length
        · rw [if_pos hlen]
          simp
        · rw [if_neg hlen, ih (acc ++ [c])]
          simp
      · rw [if_neg hfit]

theorem packPage_len (o : Oracle) (title : Text) :
    ∀ q acc, acc.length < 3 → (packPage o title q acc).1.length ≤ 3 := by
  intro q
  induction q with
  | nil => intro acc hacc; simp [packPage]; omega
  | cons c rest ih =>
    intro acc hacc
    cases ho : o.pageHeight (acc ++ [c]) title with
    | none =>
      rw [packPage_none o title c rest acc ho]
      simpa using Nat.le_of_lt hacc
    | some hh =>
      rw [packPage_some o title c rest acc hh ho]
      by_cases hfit : 0 < hh ∧ hh ≤ MAX_HEIGHT_COMMENTS
      · rw [if_pos hfit]
        by_cases hlen : 3 ≤ (acc ++ [c]).length
        · rw [if_pos hlen]
          simp only [List.length_append, List.length_singleton]
          omega
        · rw [if_neg hlen]
          refine ih (acc ++ [c]) ?_
          simp only [List.length_append, List.length_singleton] at hlen ⊢
          omega
      · rw [if_neg hfit]
        simpa using Nat.le_of_lt hacc

theorem packLoopF_nil (o : Oracle) (title : Text) (fuel : Nat) :
    packLoopF o title fuel [] = [] := by
  cases fuel <;> rfl

theorem packLoopF_cons (o : Oracle) (title : Text) (fuel : Nat) (c : Comment)
    (rest : List Comment) :
    packLoopF o title (fuel + 1) (c :: rest) =
      if (packPage o title (c :: rest) []).1 = [] then
        Page.comments [c] title :: packLoopF o title fuel rest
      else
        Page.comments (packPage o title (c :: rest) []).1 title ::
          packLoopF o title fuel (packPage o title (c :: rest) []).2 := by
  rw [packLoopF]

theorem packLoopF_flatten (o : Oracle) (title : Text) :
    ∀ fuel q, q.length ≤ fuel →
      flatMapL pageCommentsOf (packLoopF o title fuel q) = q := by
  intro fuel
  induction fuel with
  | zero =>
    intro q hq
    have : q = [] := List.length_eq_zero.mp (by omega)
    subst this
    rfl
  | succ fuel ih =>
    intro q hq
    cases q with
    | nil => rw [packLoopF_nil]; rfl
    | cons c rest =>
      have hsplit : (packPage o title (c :: rest) []).1 ++
          (packPage o title (c :: rest) []).2 = c :: rest := by
        simpa using packPage_split o title (c :: rest) []
      rw [packLoopF_cons]
      by_cases hr : (packPage o title (c :: rest) []).1 = []
      · rw [if_pos hr]
        simp only [flatMapL_cons, pageCommentsOf_comments]
        rw [ih rest (by simpa using Nat.le_of_succ_le_succ hq)]
        rfl
      · rw [if_neg hr]
        simp only [flatMapL_cons, pageCommentsOf_comments]
        have h1 : 1 ≤ (packPage o title (c :: rest) []).1.length :=
          List.length_pos.mpr hr
        have h2 : (packPage o title (c :: rest) []).1.length +
            (packPage o title (c :: rest) []).2.length = rest.length + 1 := by
          have := congrArg List.length hsplit
          simpa using this
        rw [ih (packPage o title (c :: rest) []).2 (by simp at hq; omega)]
        exact hsplit

theorem packLoopF_pages (o : Oracle) (title : Text) :
    ∀ fuel q, ∀ p ∈ packLoopF o title fuel q,
      ∃ l, p = Page.comments l title ∧ 1 ≤ l.length ∧ l.length ≤ 3 := by
  intro fuel
  induction fuel with
  | zero =>
    intro q p hp
    cases q <;> simp [packLoopF] at hp
  | succ fuel ih =>
    intro q p hp
    cases q with
    | nil => rw [packLoopF_nil] at hp; simp at hp
    | cons c rest =>
      rw [packLoopF_cons] at hp
      by_cases hr : (packPage o title (c :: rest) []).1 = []
      · rw [if_pos hr] at hp
        rcases List.mem_cons.mp hp with h1 | h1
        · exact ⟨[c], h1, by simp⟩
        · exact ih rest p h1
      · rw [if_neg hr] at hp
        rcases List.mem_cons.mp hp with h1 | h1
        · refine ⟨(packPage o title (c :: rest) []).1, h1, List.length_pos.mpr hr, ?_⟩
          exact packPage_len o title (c :: rest) [] (by simp)
        · exact ih _ p h1

theorem packLoopF_fuel (o : Oracle) (title : Text) :
    ∀ f g q, q.length ≤ f → q.length ≤ g →
      packLoopF o title f q = packLoopF o title g q := by
  intro f
  induction f with
  | zero =>
    intro g q hf hg
    have : q = [] := List.length_eq_zero.mp (by omega)
    subst this
    rw [packLoopF_nil, packLoopF_nil]
  | succ f ih =>
    intro g q hf hg
    cases q with
    | nil => rw [packLoopF_nil, packLoopF_nil]
    | cons c rest =>
      cases g with
      | zero => simp at hg
      | succ g =>
        rw [packLoopF_cons, packLoopF_cons]
        have hsplit : (packPage o title (c :: rest) []).1 ++
            (packPage o title (c :: rest) []).2 = c :: rest := by
          simpa using packPage_split o title (c :: rest) []
        have h2 : (packPage o title (c :: rest) []).1.length +
            (packPage o title (c :: rest) []).2.length = rest.length + 1 := by
          have := congrArg List.length hsplit
          simpa using this
        by_cases hr : (packPage o title (c :: rest) []).1 = []
        · rw [if_pos hr, if_pos hr]
          rw [ih g rest (by simp at hf; omega) (by simp at hg; omega)]
        · rw [if_neg hr, if_neg hr]
          have h1 : 1 ≤ (packPage o title (c :: rest) []).1.length :=
            List.length_pos.mpr hr
          rw [ih g (packPage o title (c :: rest) []).2 (by simp at hf; omega)
            (by simp at hg; omega)]

theorem mainLoopF_nil_nil (o : Oracle) (post : Post) (first : Bool) (fuel : Nat) :
    mainLoopF o post first fuel [] [] = [] := by
  cases fuel with
  | zero => rfl
  | succ fuel => rw [mainLoopF, if_pos ⟨rfl, rfl⟩]

theorem mainLoopF_fuel (o : Oracle) (post : Post) :
    ∀ f g rzh ren first, max rzh.length ren.length ≤ f →
      max rzh.length ren.length ≤ g →
      mainLoopF o post first f rzh ren = mainLoopF o post first g rzh ren := by
  intro f
  induction f with
  | zero =>
    intro g rzh ren first hf hg
    have hz0 : rzh = [] := List.length_eq_zero.mp (by omega)
    have he0 : ren = [] := List.length_eq_zero.mp (by omega)
    subst hz0; subst he0
    rw [mainLoopF_nil_nil, mainLoopF_nil_nil]
  | succ f ih =>
    intro g rzh ren first hf hg
    by_cases hemp : rzh = [] ∧ ren = []
    · obtain ⟨h1, h2⟩ := hemp
      subst h1; subst h2
      rw [mainLoopF_nil_nil, mainLoopF_nil_nil]
    · have hpos : 1 ≤ max rzh.length ren.length := by
        by_contra hcon
        push_neg at hcon
        exact hemp ⟨List.length_eq_zero.mp (by omega), List.length_eq_zero.mp (by omega)⟩
      cases g with
      | zero => omega
      | succ g =>
        rw [mainLoopF_cons o post first f rzh ren hemp,
          mainLoopF_cons o post first g rzh ren hemp]
        have hb : 1 ≤ mainChunk o rzh ren := mainChunk_pos o rzh ren
        have hdz : (rzh.drop (mainChunk o rzh ren)).length =
            rzh.length - mainChunk o rzh ren := List.length_drop _ rzh
        have hde : (ren.drop (mainChunk o rzh ren)).length =
            ren.length - mainChunk o rzh ren := List.length_drop _ ren
        rw [ih g (rzh.drop (mainChunk o rzh ren)) (ren.drop (mainChunk o rzh ren))
          false (by omega) (by omega)]

/-! ## Helper lemmas: trimming and the sentence re-chunker -/

theorem all_dropWhile (p : Char → Bool) (l : Text) :
    (l.dropWhile p).all p = l.all p := by
  induction l with
  | nil => rfl
  | cons x xs ih =>
    cases hx : p x with
    | true => simp [List.dropWhile_cons, hx, ih]
    | false => simp [List.dropWhile_cons, hx]

theorem isBlank_jsTrim (s : Text) : isBlank (jsTrim s) = isBlank s := by
  rw [jsTrim, isBlank, isBlank, List.all_reverse, all_dropWhile, List.all_reverse,
    all_dropWhile]

theorem mem_jsTrim (s : Text) (c : Char) (h : c ∈ jsTrim s) : c ∈ s := by
  rw [jsTrim] at h
  have h2 := List.mem_reverse.mp h
  have h3 := (List.dropWhile_sublist _).subset h2
  have h4 := List.mem_reverse.mp h3
  exact (List.dropWhile_sublist _).subset h4

theorem isBlank_append_stop (s : Text) : isBlank (s ++ ['。']) = false := by
  have h : jsIsSpace '。' = false := by decide
  rw [isBlank, List.all_append]
  simp [h]

theorem repackLoop_cons_eq (s : Text) (rest : List Text) (cur : Text) :
    repackLoop (s :: rest) cur =
      if 150 < (cur ++ s ++ ['。']).length ∧ 0 < cur.length then
        jsTrim cur :: repackLoop rest (s ++ ['。'])
      else repackLoop rest (cur ++ s ++ ['。']) := by
  rw [repackLoop]

theorem repackLoop_mem :
    ∀ (sentences : List Text) (cur : Text),
      (cur = [] ∨ isBlank cur = false) →
      (∀ c ∈ cur, (c == '\n') = false) →
      (∀ s ∈ sentences, ∀ c ∈ s, (c == '\n') = false) →
      ∀ t ∈ repackLoop sentences cur,
        isBlank t = false ∧ ∀ c ∈ t, (c == '\n') = false := by
  intro sentences
  induction sentences with
  | nil =>
    intro cur hcur hcnl _ t ht
    rw [repackLoop] at ht
    by_cases hb : isBlank cur = true
    · rw [if_pos hb] at ht
      simp at ht
    · rw [if_neg hb] at ht
      have ht1 : t = jsTrim cur := by simpa using ht
      subst ht1
      refine ⟨by rw [isBlank_jsTrim]; simpa using hb, fun c hc => hcnl c (mem_jsTrim cur c hc)⟩
  | cons s rest ih =>
    intro cur hcur hcnl hsnl t ht
    rw [repackLoop_cons_eq] at ht
    have hstopnl : ∀ c ∈ s ++ ['。'], (c == '\n') = false := by
      intro c hc
      rcases List.mem_append.mp hc with hc1 | hc1
      · exact hsnl s (by simp) c hc1
      · have : c = '。' := by simpa using hc1
        subst this
        decide
    by_cases hcond : 150 < (cur ++ s ++ ['。']).length ∧ 0 < cur.length
    · rw [if_pos hcond] at ht
      rcases List.mem_cons.mp ht with ht1 | ht1
      · subst ht1
        have hcne : isBlank cur = false := by
          rcases hcur with h1 | h1
          · subst h1; simp at hcond
          · exact h1
        exact ⟨by rw [isBlank_jsTrim]; exact hcne,
          fun c hc => hcnl c (mem_jsTrim cur c hc)⟩
      · exact ih (s ++ ['。']) (Or.inr (isBlank_append_stop s)) hstopnl
          (fun u hu c hc => hsnl u (by simp [hu]) c hc) t ht1
    · rw [if_neg hcond] at ht
      have hpotnl : ∀ c ∈ cur ++ s ++ ['。'], (c == '\n') = false := by
        intro c hc
        rcases List.mem_append.mp hc with hc1 | hc1
        · rcases List.mem_append.mp hc1 with hc2 | hc2
          · exact hcnl c hc2
          · exact hsnl s (by simp) c hc2
        · have : c = '。' := by simpa using hc1
          subst this
          decide
      exact ih (cur ++ s ++ ['。']) (Or.inr (isBlank_append_stop (cur ++ s))) hpotnl
        (fun u hu c hc => hsnl u (by simp [hu]) c hc) t ht

theorem splitLongSegment_mem (seg : Text)
    (hseg : isBlank seg = false ∧ ∀ c ∈ seg, (c == '\n') = false) :
    ∀ t ∈ splitLongSegment seg, isBlank t = false ∧ ∀ c ∈ t, (c == '\n') = false := by
  intro t ht
  rw [splitLongSegment] at ht
  by_cases h200 : 200 < seg.length
  · rw [if_pos h200] at ht
    by_cases h1 : 1 < ((splitOnP isSentenceEnd seg).filter (fun s => !(isBlank s))).length
    · rw [if_pos h1] at ht
      refine repackLoop_mem _ [] (Or.inl rfl) (by simp) ?_ t ht
      intro u hu c hc
      have hu2 := (List.mem_filter.mp hu).1
      exact (mem_splitOnP isSentenceEnd seg u hu2 c hc).2 |> hseg.2 c
    · rw [if_neg h1] at ht
      have : t = seg := by simpa using ht
      subst this
      exact hseg
  · rw [if_neg h200] at ht
    have : t = seg := by simpa using ht
    subst this
    exact hseg

theorem smartSplitText_mem (s : Text) :
    ∀ t ∈ smartSplitText s, isBlank t = false ∧ ∀ c ∈ t, (c == '\n') = false := by
  intro t ht
  rw [smartSplitText] at ht
  by_cases hs : s = []
  · rw [if_pos hs] at ht
    simp at ht
  · rw [if_neg hs] at ht
    by_cases hcond : (splitParagraphs s).length ≤ 2 ∧ 500 < s.length
    · rw [if_pos hcond] at ht
      obtain ⟨seg, hseg, hts⟩ := (mem_flatMapL _ _ _).mp ht
      exact splitLongSegment_mem seg (splitParagraphs_mem s seg hseg) t hts
    · rw [if_neg hcond] at ht
      exact splitParagraphs_mem s t ht

/-! ## Helper lemmas: the Comment Splitter -/

theorem mkChunk_body_zh (c : Comment) (bzh ben : Text) (cont : Bool) :
    (mkChunk c bzh ben cont).body_zh = bzh := rfl

theorem mkChunk_body (c : Comment) (bzh ben : Text) (cont : Bool) :
    (mkChunk c bzh ben cont).body = ben := rfl

theorem splitChunkO_pos (o : Oracle) (c : Comment) (first : Bool)
    (rzh ren : List Text) (b : Nat) (h : splitChunkO o c first rzh ren = some b) :
    1 ≤ b :=
  fitChunkO_pos _ _ _ b h

theorem splitLoopF_step_err (o : Oracle) (c : Comment) (first : Bool) (fuel : Nat)
    (rzh ren : List Text) (hemp : ¬(rzh = [] ∧ ren = []))
    (hcb : splitChunkO o c first rzh ren = none) :
    splitLoopF o c first (fuel + 1) rzh ren = none := by
  simp only [splitLoopF, hcb]
  rw [if_neg hemp]

theorem splitLoopF_step_rec_err (o : Oracle) (c : Comment) (first : Bool) (fuel : Nat)
    (rzh ren : List Text) (b : Nat) (hemp : ¬(rzh = [] ∧ ren = []))
    (hcb : splitChunkO o c first rzh ren = some b)
    (hrec : splitLoopF o c false fuel (rzh.drop b) (ren.drop b) = none) :
    splitLoopF o c first (fuel + 1) rzh ren = none := by
  simp only [splitLoopF, hcb, hrec]
  rw [if_neg hemp]

theorem splitLoopF_step_some (o : Oracle) (c : Comment) (first : Bool) (fuel : Nat)
    (rzh ren : List Text) (b : Nat) (rest : List Comment)
    (hemp : ¬(rzh = [] ∧ ren = []))
    (hcb : splitChunkO o c first rzh ren = some b)
    (hrec : splitLoopF o c false fuel (rzh.drop b) (ren.drop b) = some rest) :
    splitLoopF o c first (fuel + 1) rzh ren =
      some (mkChunk c (joinNL (rzh.take b)) (joinNL (ren.take b)) (!first) :: rest) := by
  simp only [splitLoopF, hcb, hrec]
  rw [if_neg hemp]

theorem splitLoopF_flatten (o : Oracle) (c : Comment) :
    ∀ fuel rzh ren first chunks,
      max rzh.length ren.length ≤ fuel →
      (∀ t ∈ rzh, isBlank t = false ∧ ∀ ch ∈ t, (ch == '\n') = false) →
      (∀ t ∈ ren, isBlank t = false ∧ ∀ ch ∈ t, (ch == '\n') = false) →
      splitLoopF o c first fuel rzh ren = some chunks →
      flatMapL (fun k => splitParagraphs k.body_zh) chunks = rzh ∧
      flatMapL (fun k => splitParagraphs k.body) chunks = ren := by
  intro fuel
  induction fuel with
  | zero =>
    intro rzh ren first chunks hf hz he heq
    have hz0 : rzh = [] := List.length_eq_zero.mp (by omega)
    have he0 : ren = [] := List.length_eq_zero.mp (by omega)
    subst hz0; subst he0
    have hc0 : chunks = [] := by
      rw [splitLoopF] at heq
      exact (Option.some_inj.mp heq).symm
    subst hc0
    exact ⟨rfl, rfl⟩
  | succ fuel ih =>
    intro rzh ren first chunks hf hz he heq
    by_cases hemp : rzh = [] ∧ ren = []
    · obtain ⟨h1, h2⟩ := hemp
      subst h1; subst h2
      rw [splitLoopF, if_pos ⟨rfl, rfl⟩] at heq
      have hc0 : chunks = [] := (Option.some_inj.mp heq).symm
      subst hc0
      exact ⟨rfl, rfl⟩
    · cases hcb : splitChunkO o c first rzh ren with
      | none =>
        rw [splitLoopF_step_err o c first fuel rzh ren hemp hcb] at heq
        exact absurd heq (by simp)
      | some b =>
        cases hrec : splitLoopF o c false fuel (rzh.drop b) (ren.drop b) with
        | none =>
          rw [splitLoopF_step_rec_err o c first fuel rzh ren b hemp hcb hrec] at heq
          exact absurd heq (by simp)
        | some rest =>
          rw [splitLoopF_step_some o c first fuel rzh ren b rest hemp hcb hrec] at heq
          have hc0 : mkChunk c (joinNL (rzh.take b)) (joinNL (ren.take b)) (!first) ::
              rest = chunks := Option.some_inj.mp heq
          subst hc0
          have hb : 1 ≤ b := splitChunkO_pos o c first rzh ren b hcb
          have hdz : (rzh.drop b).length = rzh.length - b := List.length_drop b rzh
          have hde : (ren.drop b).length = ren.length - b := List.length_drop b ren
          have ihd := ih (rzh.drop b) (ren.drop b) false rest (by omega)
            (fun t ht => hz t (List.mem_of_mem_drop ht))
            (fun t ht => he t (List.mem_of_mem_drop ht)) hrec
          have hzt : splitParagraphs (joinNL (rzh.take b)) = rzh.take b :=
            splitParagraphs_joinNL_parts _ (fun t ht => hz t (List.mem_of_mem_take ht))
          have het : splitParagraphs (joinNL (ren.take b)) = ren.take b :=
            splitParagraphs_joinNL_parts _ (fun t ht => he t (List.mem_of_mem_take ht))
          simp only [flatMapL_cons, mkChunk_body_zh, mkChunk_body, hzt, het, ihd.1, ihd.2]
          exact ⟨List.take_append_drop b rzh, List.take_append_drop b ren⟩

/-! ## Helper lemmas: queue building and orchestration -/

theorem buildQueue_err (o : Oracle) (c : Comment) (rest : List Comment)
    (h : o.commentHeight c = none) :
    buildQueue o (c :: rest) = c :: buildQueue o rest := by
  simp only [buildQueue, h]
  rfl

theorem buildQueue_split_err (o : Oracle) (c : Comment) (rest : List Comment) (h : ℚ)
    (hh : o.commentHeight c = some h) (hgt : MAX_HEIGHT_SINGLE_COMMENT < h)
    (hsp : splitComment o c = none) :
    buildQueue o (c :: rest) = c :: buildQueue o rest := by
  simp only [buildQueue, hh, hsp]
  rw [if_pos hgt]
  rfl

theorem flatMapL_nil_of_all (f : α → List β) (l : List α) (h : ∀ x ∈ l, f x = []) :
    flatMapL f l = [] := by
  induction l with
  | nil => rfl
  | cons x xs ih =>
    rw [flatMapL_cons, h x (by simp), ih (fun y hy => h y (by simp [hy]))]
    rfl

theorem paginateComments_pages (o : Oracle) (post : Post) :
    ∀ p ∈ paginateComments o post,
      ∃ l, p = Page.comments l (jsOr post.title_zh post.title) ∧
        1 ≤ l.length ∧ l.length ≤ 3 := by
  intro p hp
  rw [paginateComments] at hp
  by_cases hc : post.commentList = []
  · rw [if_pos hc] at hp
    simp at hp
  · rw [if_neg hc] at hp
    exact packLoopF_pages o _ _ _ p hp

/-! ## Helper lemmas: the tokenizer invariant -/

theorem SegOK_singleton (c : Char) : SegOK [c] := by
  intro d hd _
  rw [List.mem_singleton] at hd
  rw [hd]

theorem SegOK_of_no_chinese (s : Text) (h : ∀ c ∈ s, isChinese c = false) : SegOK s := by
  intro c hc hch
  rw [h c hc] at hch
  exact absurd hch (by simp)

theorem classify_chinese_iff (c : Char) :
    classify c = CharType.chinese ↔ isChinese c = true := by
  rw [classify]
  split_ifs with h1 h2 h3 h4 <;> simp_all

theorem resOK_append (res : List Text) (x : Text)
    (hres : ∀ s ∈ res, SegOK s) (hx : SegOK x) : ∀ s ∈ res ++ [x], SegOK s := by
  intro s hs
  rcases List.mem_append.mp hs with h | h
  · exact hres s h
  · rw [List.mem_singleton] at h
    subst h
    exact hx

theorem link_singleton (ch : Char) :
    ∀ c ∈ [ch], isChinese c = true → some (classify ch) = some CharType.chinese := by
  intro c hc hch
  rw [List.mem_singleton] at hc
  subst hc
  rw [(classify_chinese_iff c).mpr hch]

theorem dropLast_append_single (l : Text) (a : Char) : (l ++ [a]).dropLast = l := by
  simp

theorem spStep_inv (st : SpState) (ch : Char) (h : StOK st) : StOK (spStep st ch) := by
  obtain ⟨res, cur, last⟩ := st
  obtain ⟨hres, hcur, hlink⟩ := h
  simp only [StOK] at hlink ⊢
  simp only at hres hcur hlink
  cases last with
  | none =>
    have hfree : ∀ c ∈ cur, isChinese c = false := by
      intro c hc
      by_contra hcon
      have h2 := hlink c hc (by simpa using hcon)
      simp at h2
    simp only [spStep]
    split_ifs with hA
    all_goals dsimp only
    · refine ⟨?_, SegOK_singleton ch, link_singleton ch⟩
      rw [dropLast_append_single]
      exact resOK_append res cur hres (SegOK_of_no_chinese cur hfree)
    · refine ⟨hres, ?_, ?_⟩
      · intro c hc hch
        rcases List.mem_append.mp hc with hm | hm
        · rw [hfree c hm] at hch
          exact absurd hch (by simp)
        · rw [List.mem_singleton] at hm
          subst hm
          have hct : classify c = CharType.chinese := (classify_chinese_iff c).mpr hch
          have hlen : ¬ 1 < (cur ++ [c]).length := fun hl => hA ⟨hct, hl⟩
          have hc0 : cur = [] := by
            rw [List.length_append, List.length_singleton] at hlen
            exact List.length_eq_zero.mp (by omega)
          rw [hc0]
          rfl
      · intro c hc hch
        rcases List.mem_append.mp hc with hm | hm
        · rw [hfree c hm] at hch
          exact absurd hch (by simp)
        · rw [List.mem_singleton] at hm
          subst hm
          rw [(classify_chinese_iff c).mpr hch]
  | some lt =>
    simp only [spStep]
    split_ifs with h1 h2 h3 h4 h5 h6 h7 h8 h9 h10 h11 h12 h13 h14 h15
    all_goals dsimp only
    -- branch: lt = ct, post-split
    · refine ⟨?_, SegOK_singleton ch, link_singleton ch⟩
      rw [dropLast_append_single]
      exact resOK_append res cur hres hcur
    -- branch: lt = ct, no post-split
    · refine ⟨hres, ?_, ?_⟩
      · intro c hc hch
        rcases List.mem_append.mp hc with hm | hm
        · have hlt : lt = CharType.chinese := by
            have h3 := hlink c hm hch
            simpa using h3
          have hct : classify ch = CharType.chinese := by rw [← h1, hlt]
          have hlen : ¬ 1 < (cur ++ [ch]).length := fun hl => h2 ⟨hct, hl⟩
          have hc0 : cur = [] := by
            rw [List.length_append, List.length_singleton] at hlen
            exact List.length_eq_zero.mp (by omega)
          rw [hc0] at hm
          simp at hm
        · rw [List.mem_singleton] at hm
          subst hm
          have hct : classify c = CharType.chinese := (classify_chinese_iff c).mpr hch
          have hlen : ¬ 1 < (cur ++ [c]).length := fun hl => h2 ⟨hct, hl⟩
          have hc0 : cur = [] := by
            rw [List.length_append, List.length_singleton] at hlen
            exact List.length_eq_zero.mp (by omega)
          rw [hc0]
          rfl
      · intro c hc hch
        rcases List.mem_append.mp hc with hm | hm
        · have hlt : lt = CharType.chinese := by
            have h3 := hlink c hm hch
            simpa using h3
          rw [← h1, hlt]
        · rw [List.mem_singleton] at hm
          subst hm
          rw [(classify_chinese_iff c).mpr hch]
    -- branch: english→space, post-split
    · refine ⟨?_, SegOK_singleton ch, link_singleton ch⟩
      rw [dropLast_append_single]
      exact resOK_append res cur hres hcur
    -- branch: english→space, no post-split
    · refine ⟨hres, ?_, ?_⟩
      · intro c hc hch
        rcases List.mem_append.mp hc with hm | hm
        · have hlt : lt = CharType.chinese := by
            have hq := hlink c hm hch
            simpa using hq
          rw [h3.1] at hlt
          exact absurd hlt (by simp)
        · rw [List.mem_singleton] at hm
          subst hm
          have hct : classify c = CharType.chinese := (classify_chinese_iff c).mpr hch
          rw [h3.2] at hct
          exact absurd hct (by simp)
      · intro c hc hch
        rcases List.mem_append.mp hc with hm | hm
        · have hlt : lt = CharType.chinese := by
            have hq := hlink c hm hch
            simpa using hq
          rw [h3.1] at hlt
          exact absurd hlt (by simp)
        · rw [List.mem_singleton] at hm
          subst hm
          rw [(classify_chinese_iff c).mpr hch]
    -- branch: space→english, post-split
    · refine ⟨?_, SegOK_singleton ch, link_singleton ch⟩
      rw [dropLast_append_single]
      exact resOK_append res cur hres hcur
    -- branch: space→english, no post-split
    · refine ⟨hres, ?_, ?_⟩
      · intro c hc hch
        rcases List.mem_append.mp hc with hm | hm
        · have hlt : lt = CharType.chinese := by
            have hq := hlink c hm hch
            simpa using hq
          rw [h5.1] at hlt
          exact absurd hlt (by simp)
        · rw [List.mem_singleton] at hm
          subst hm
          have hct : classify c = CharType.chinese := (classify_chinese_iff c).mpr hch
          rw [h5.2] at hct
          exact absurd hct (by simp)
      · intro c hc hch
        rcases List.mem_append.mp hc with hm | hm
        · have hlt : lt = CharType.chinese := by
            have hq := hlink c hm hch
            simpa using hq
          rw [h5.1] at hlt
          exact absurd hlt (by simp)
        · rw [List.mem_singleton] at hm
          subst hm
          rw [(classify_chinese_iff c).mpr hch]
    -- branch: ct = chinese, blank cur, post-split (impossible: length 1)
    · exact absurd h9.2 (by simp)
    -- branch: ct = chinese, blank cur, no post-split
    · exact ⟨hres, SegOK_singleton ch, link_singleton ch⟩
    -- branch: ct = chinese, nonblank cur, post-split (impossible)
    · exact absurd h10.2 (by simp)
    -- branch: ct = chinese, nonblank cur, no post-split
    · exact ⟨resOK_append res cur hres hcur, SegOK_singleton ch, link_singleton ch⟩
    -- branch: lt = chinese, blank cur, post-split (impossible)
    · exact absurd h13.2 (by simp)
    -- branch: lt = chinese, blank cur, no post-split
    · exact ⟨hres, SegOK_singleton ch, link_singleton ch⟩
    -- branch: lt = chinese, nonblank cur, post-split (impossible)
    · exact absurd h14.2 (by simp)
    -- branch: lt = chinese, nonblank cur, no post-split
    · exact ⟨resOK_append res cur hres hcur, SegOK_singleton ch, link_singleton ch⟩
    -- final else branch, post-split (impossible: ct ≠ chinese)
    · exact absurd h15.1 h7
    -- final else branch, no post-split
    · refine ⟨hres, ?_, ?_⟩
      · intro c hc hch
        rcases List.mem_append.mp hc with hm | hm
        · have hlt : lt = CharType.chinese := by
            have hq := hlink c hm hch
            simpa using hq
          exact absurd hlt h11
        · rw [List.mem_singleton] at hm
          subst hm
          exact absurd ((classify_chinese_iff c).mpr hch) h7
      · intro c hc hch
        rcases List.mem_append.mp hc with hm | hm
        · have hlt : lt = CharType.chinese := by
            have hq := hlink c hm hch
            simpa using hq
          exact absurd hlt h11
        · rw [List.mem_singleton] at hm
          subst hm
          exact absurd ((classify_chinese_iff c).mpr hch) h7

theorem foldl_spStep_inv (t : Text) : ∀ st : SpState, StOK st → StOK (t.foldl spStep st) := by
  induction t with
  | nil => intro st h; exact h
  | cons x xs ih => intro st h; exact ih (spStep st x) (spStep_inv st x h)


/-! ## Claim theorems -/

/-- Claim C1 (counterexample): the Fitter claim fails as stated.  The
measurement `mZeroes` is monotonically non-decreasing on `[1, 3]` and
`k' = 3` satisfies `0 < measure ∧ measure ≤ 800`, yet the binary search —
which treats a `0` height as "does not fit" and searches downward — returns
chunk size 1, whose measured height `0` does not satisfy the predicate. -/
theorem fitter_zero_height_counterexample :
    monoOn mZeroes 3 ∧
    (0 < mZeroes 3 ∧ mZeroes 3 ≤ 800) ∧
    fitChunkT mZeroes 800 3 = 1 ∧
    ¬(0 < mZeroes (fitChunkT mZeroes 800 3) ∧
      mZeroes (fitChunkT mZeroes 800 3) ≤ 800) := by
  decide

/-- Claim C1 (amended): for every Fitter invocation whose measurement is
monotonically non-decreasing **and strictly positive** on `[1, n]`, the
returned `chunkSize = k` satisfies `measure k > 0 ∧ measure k ≤ limit`
whenever some `k' ∈ [1, n]` satisfies that predicate; and if no `k'`
satisfies it, the returned chunk size is exactly 1 (this half needs no
positivity). -/
theorem fitChunk_correct_of_monotone_positive (m : Nat → ℚ) (limit : ℚ) (n : Nat)
    (hmono : monoOn m n) (hpos : ∀ k, 1 ≤ k → k ≤ n → 0 < m k) :
    ((∃ kp, 1 ≤ kp ∧ kp ≤ n ∧ 0 < m kp ∧ m kp ≤ limit) →
      0 < m (fitChunkT m limit n) ∧ m (fitChunkT m limit n) ≤ limit) ∧
    ((∀ k, 1 ≤ k → k ≤ n → ¬(0 < m k ∧ m k ≤ limit)) → fitChunkT m limit n = 1) := by
  constructor
  · rintro ⟨kp, hkp1, hkpn, hkpP1, hkpP2⟩
    have hfit : 0 < m kp ∧ m kp ≤ limit := ⟨hkpP1, hkpP2⟩
    have hK1 : 1 ≤ Nat.findGreatest (fun k => 0 < m k ∧ m k ≤ limit) n :=
      le_trans hkp1 (Nat.le_findGreatest hkpn hfit)
    have hKn : Nat.findGreatest (fun k => 0 < m k ∧ m k ≤ limit) n ≤ n :=
      Nat.findGreatest_le n
    have hPK := @Nat.findGreatest_spec kp (fun k => 0 < m k ∧ m k ≤ limit)
      (fun _ => instDecidableAnd) n hkpn hfit
    have hmaxK : ∀ k, 1 ≤ k → k ≤ n → (0 < m k ∧ m k ≤ limit) →
        k ≤ Nat.findGreatest (fun k => 0 < m k ∧ m k ≤ limit) n :=
      fun k _ hk hP => Nat.le_findGreatest hk hP
    have hdown : ∀ j k, 1 ≤ j → j ≤ k → k ≤ n → (0 < m k ∧ m k ≤ limit) →
        (0 < m j ∧ m j ≤ limit) :=
      fun j k hj hjk hkn hPk =>
        ⟨hpos j hj (le_trans hjk hkn), le_trans (hmono k hkn j hjk hj) hPk.2⟩
    have hsearch := searchLoopT_finds_max m limit n
      (Nat.findGreatest (fun k => 0 < m k ∧ m k ≤ limit) n) hK1 hKn hPK hmaxK hdown
      (n + 1) 1 n 0 (by omega) (by omega) (le_refl n) (by omega) (Or.inl hKn) (by omega)
    rw [fitChunkT_eq, hsearch, if_neg (by omega)]
    exact hPK
  · intro hnone
    rw [fitChunkT_eq,
      searchLoopT_of_none m limit n hnone (n + 1) 1 n 0 (by omega) (by omega) (le_refl n)]
    simp

/-- Witness for the amended C1 theorem at the constant measurement 100,
limit 800, three paragraphs. -/
theorem fitChunk_correct_witness :
    0 < mHundred (fitChunkT mHundred 800 3) ∧
    mHundred (fitChunkT mHundred 800 3) ≤ 800 :=
  (fitChunk_correct_of_monotone_positive mHundred 800 3 (by decide)
    (fun _ _ _ => by norm_num [mHundred])).1
    ⟨1, by norm_num, by norm_num, by norm_num [mHundred], by norm_num [mHundred]⟩

/-- Claim C2: for every post and every measurement collaborator, splitting
the content carried by each emitted `main`/`main_continued` page on the
paragraph separator (the same newline paragraphization the code uses,
dropping blank pieces) and concatenating the results across pages in
emission order yields exactly the paragraphized body of the post, per
language track independently.  Comments pages carry no main content and
contribute nothing. -/
theorem paginate_main_reconstruction (o : Oracle) (post : Post) :
    flatMapL (fun p => splitParagraphs (pageContentZh p)) (paginate o post) =
      splitParagraphs post.selftext_zh ∧
    flatMapL (fun p => splitParagraphs (pageContentEn p)) (paginate o post) =
      splitParagraphs post.selftext := by
  have hmain := paginateMainContent_ne_nil o post
  have hne : paginateMainContent o post ++ paginateComments o post ≠ [] :=
    fun hcon => hmain (List.append_eq_nil.mp hcon).1
  simp only [paginate]
  rw [if_neg hne, flatMapL_append, flatMapL_append]
  have hcomm1 : flatMapL (fun p => splitParagraphs (pageContentZh p))
      (paginateComments o post) = [] :=
    flatMapL_nil_of_all _ _ (fun p hp => by
      obtain ⟨l, rfl, _⟩ := paginateComments_pages o post p hp
      rfl)
  have hcomm2 : flatMapL (fun p => splitParagraphs (pageContentEn p))
      (paginateComments o post) = [] :=
    flatMapL_nil_of_all _ _ (fun p hp => by
      obtain ⟨l, rfl, _⟩ := paginateComments_pages o post p hp
      rfl)
  rw [hcomm1, hcomm2, List.append_nil, List.append_nil]
  rw [paginateMainContent]
  by_cases hemp : splitParagraphs post.selftext_zh = [] ∧ splitParagraphs post.selftext = []
  · rw [if_pos hemp]
    constructor
    · rw [hemp.1]
      rfl
    · rw [hemp.2]
      rfl
  · rw [if_neg hemp]
    exact mainLoopF_flatten o post _ _ _ true (le_refl _)
      (fun t ht => splitParagraphs_mem _ t ht)
      (fun t ht => splitParagraphs_mem _ t ht)

/-- Claim C3 (counterexample): no 12-comment cap exists on the active
pipeline.  `post13` has 13 comments with non-empty bodies and strictly
descending scores; its 13th (lowest-scored) comment survives preprocessing
and appears on an emitted `comments` page. -/
theorem comment_cap_counterexample :
    post13.commentList.length = 13 ∧
    post13.commentList.getLast? = some (mkShortComment 1) ∧
    (preprocessPostData post13).commentList.length = 13 ∧
    mkShortComment 1 ∈
      flatMapL pageCommentsOf (paginate oraSmall (preprocessPostData post13)) := by
  decide

/-- Claim C3 (amended): the comment list entering the splitting and packing
stage is the post's comments filtered to non-empty bodies (with authors
trimmed) and stably sorted by descending score; **no cap of 12 is applied**
— every such comment enters pagination. -/
theorem preprocess_queue_sorted_no_cap (post : Post) :
    List.Sorted descUps (preprocessPostData post).commentList ∧
    List.Perm (preprocessPostData post).commentList
      ((post.commentList.filter (fun c => !(isBlank c.body))).map
        (fun c => { c with author := jsTrim c.author })) := by
  constructor
  · exact List.sorted_insertionSort descUps _
  · exact List.perm_insertionSort descUps _

/-- Claim C4: every emitted `comments` page carries at most 3
comments/chunks, for every post and every measurement collaborator,
including pages produced through the forced-dequeue path. -/
theorem comments_page_count_cap (o : Oracle) (post : Post) (p : Page)
    (hp : p ∈ paginate o post) : (pageCommentsOf p).length ≤ 3 := by
  simp only [paginate] at hp
  by_cases hne : paginateMainContent o post ++ paginateComments o post = []
  · rw [if_pos hne] at hp
    rw [List.mem_singleton] at hp
    subst hp
    simp [defaultMainPage, pageCommentsOf]
  · rw [if_neg hne] at hp
    rcases List.mem_append.mp hp with hm | hm
    · rw [paginateMainContent] at hm
      by_cases hemp : splitParagraphs post.selftext_zh = [] ∧
          splitParagraphs post.selftext = []
      · rw [if_pos hemp] at hm
        rw [List.mem_singleton] at hm
        subst hm
        simp [defaultMainPage, pageCommentsOf]
      · rw [if_neg hemp] at hm
        rw [mainLoopF_comments_nil o post _ _ _ true p hm]
        simp
    · obtain ⟨l, rfl, _, h3⟩ := paginateComments_pages o post p hm
      simpa [pageCommentsOf_comments] using h3

/-- Witness for C4 at a concrete post and collaborator. -/
theorem comments_page_count_cap_witness :
    (pageCommentsOf (Page.comments [mkShortComment 7] ("t".data))).length ≤ 3 :=
  comments_page_count_cap oraSmall postEmptyBody _ (by decide)

/-- Claim C5 (counterexample): a post whose body tracks paragraphize to
empty but whose comment queue is non-empty does **not** yield only
`comments` pages: `paginateMainContent` itself immediately emits a default
`main` page, so the output starts with a `main` page. -/
theorem empty_body_pages_counterexample :
    splitParagraphs postEmptyBody.selftext_zh = [] ∧
    splitParagraphs postEmptyBody.selftext = [] ∧
    postEmptyBody.commentList ≠ [] ∧
    paginate oraSmall postEmptyBody =
      [Page.main ("t".data) [] 5 ("s".data) none none,
       Page.comments [mkShortComment 7] ("t".data)] := by
  decide

/-- Claim C5 (amended): when both body tracks paragraphize to empty,
`paginateMainContent` immediately emits exactly one default `main` page
(title/score/subreddit only, no content fields), regardless of comments;
consequently `paginate` returns that default page followed by whatever
comment pagination emits, and the orchestrator-level empty-result fallback
never fires. -/
theorem empty_body_default_main_first (o : Oracle) (post : Post)
    (hzh : splitParagraphs post.selftext_zh = [])
    (hen : splitParagraphs post.selftext = []) :
    paginateMainContent o post = [defaultMainPage post] ∧
    paginate o post = defaultMainPage post :: paginateComments o post := by
  have h1 : paginateMainContent o post = [defaultMainPage post] := by
    rw [paginateMainContent, if_pos ⟨hzh, hen⟩]
  refine ⟨h1, ?_⟩
  simp only [paginate, h1, List.singleton_append]
  rw [if_neg (List.cons_ne_nil _ _)]

/-- Witness for the amended C5 theorem at a concrete empty-body post. -/
theorem empty_body_default_main_first_witness :
    paginate oraSmall postEmptyBody =
      defaultMainPage postEmptyBody :: paginateComments oraSmall postEmptyBody :=
  (empty_body_default_main_first oraSmall postEmptyBody (by decide) (by decide)).2

/-- Claim C6 (counterexample): chunk concatenation does not reconstruct the
**original** comment body.  `cBlankLine` has translated body `"a\n\nb"`; the
Splitter paragraphizes it (dropping the blank line), and the single emitted
chunk joins back to `"a\nb" ≠ "a\n\nb"`. -/
theorem split_comment_reconstruction_counterexample :
    (splitComment oraSmall cBlankLine).map
        (fun cs => joinNL (cs.map (fun k => k.body_zh))) = some ("a\nb".data) ∧
    cBlankLine.body_zh = "a\n\nb".data ∧
    "a\nb".data ≠ "a\n\nb".data := by
  decide

/-- Claim C6 (amended): for every comment the Splitter successfully splits,
re-paragraphizing each chunk body and concatenating across chunks in
emission order reconstructs exactly the `smartSplitText` paragraphization of
the original body (not the raw body: blank lines are dropped and long
paragraphs re-chunked with normalized sentence punctuation), per language
track independently. -/
theorem split_comment_reconstruction (o : Oracle) (c : Comment)
    (chunks : List Comment) (h : splitComment o c = some chunks) :
    flatMapL (fun k => splitParagraphs k.body_zh) chunks = smartSplitText c.body_zh ∧
    flatMapL (fun k => splitParagraphs k.body) chunks = smartSplitText c.body := by
  simp only [splitComment] at h
  exact splitLoopF_flatten o c _ _ _ true chunks (le_refl _)
    (fun t ht => smartSplitText_mem _ t ht)
    (fun t ht => smartSplitText_mem _ t ht) h

/-- Witness for the amended C6 theorem at a concrete comment. -/
theorem split_comment_reconstruction_witness :
    flatMapL (fun k => splitParagraphs k.body_zh)
        [mkChunk cBlankLine ("a\nb".data) [] false] =
      smartSplitText cBlankLine.body_zh :=
  (split_comment_reconstruction oraSmall cBlankLine
    [mkChunk cBlankLine ("a\nb".data) [] false] (by decide)).1

/-- Claim C7: when measuring or splitting a comment throws, the comment is
enqueued unmodified into the working queue and queue building proceeds with
the remaining comments — the error never escapes the comment-processing
step. -/
theorem comment_throw_enqueued_unsplit (o : Oracle) (c : Comment)
    (rest : List Comment)
    (h : o.commentHeight c = none ∨
      ∃ hh, o.commentHeight c = some hh ∧ MAX_HEIGHT_SINGLE_COMMENT < hh ∧
        splitComment o c = none) :
    buildQueue o (c :: rest) = c :: buildQueue o rest := by
  rcases h with h | ⟨hh, h1, h2, h3⟩
  · exact buildQueue_err o c rest h
  · exact buildQueue_split_err o c rest hh h1 h2 h3

/-- Witness for C7 with a collaborator whose comment measurement always
throws. -/
theorem comment_throw_enqueued_unsplit_witness :
    buildQueue oraThrow [cBlankLine] = [cBlankLine] :=
  comment_throw_enqueued_unsplit oraThrow cBlankLine [] (Or.inl rfl)

/-- Claim C8: pagination terminates with forced progress.  (i) Every Fitter
invocation returns a chunk size of at least 1, so each round consumes at
least one item of the non-empty remaining queues; (ii) the main-content loop
is stable under any fuel at least `max` of the queue lengths — it completes
within that many rounds; (iii) the packer loop is stable under any fuel at
least the queue length — it completes within that many pages; (iv) every
emitted comments page consumes at least one queued comment, including the
forced dequeue. -/
theorem pagination_terminates :
    (∀ (m : Nat → ℚ) (limit : ℚ) (n : Nat), 1 ≤ fitChunkT m limit n) ∧
    (∀ (o : Oracle) (post : Post) (first : Bool) (rzh ren : List Text) (f : Nat),
      max rzh.length ren.length ≤ f →
      mainLoopF o post first f rzh ren =
        mainLoopF o post first (max rzh.length ren.length) rzh ren) ∧
    (∀ (o : Oracle) (title : Text) (q : List Comment) (f : Nat), q.length ≤ f →
      packLoopF o title f q = packLoopF o title q.length q) ∧
    (∀ (o : Oracle) (title : Text) (fuel : Nat) (q : List Comment),
      ∀ p ∈ packLoopF o title fuel q, 1 ≤ (pageCommentsOf p).length) := by
  refine ⟨fitChunkT_pos, ?_, ?_, ?_⟩
  · intro o post first rzh ren f hf
    exact mainLoopF_fuel o post f (max rzh.length ren.length) rzh ren first hf (le_refl _)
  · intro o title q f hf
    exact packLoopF_fuel o title f q.length q hf (le_refl _)
  · intro o title fuel q p hp
    obtain ⟨l, rfl, h1, _⟩ := packLoopF_pages o title fuel q p hp
    simpa [pageCommentsOf_comments] using h1

/-- Witness for C8 at concrete inputs. -/
theorem pagination_terminates_witness :
    1 ≤ fitChunkT mHundred 800 3 ∧
    mainLoopF oraSmall post13 true 5 ["a".data] [] =
      mainLoopF oraSmall post13 true (max ["a".data].length ([] : List Text).length)
        ["a".data] [] ∧
    packLoopF oraSmall ("t".data) 7 [mkShortComment 1] =
      packLoopF oraSmall ("t".data) [mkShortComment 1].length [mkShortComment 1] ∧
    1 ≤ (pageCommentsOf (Page.comments [mkShortComment 1] ("t".data))).length :=
  ⟨pagination_terminates.1 mHundred 800 3,
   pagination_terminates.2.1 oraSmall post13 true ["a".data] [] 5 (by decide),
   pagination_terminates.2.2.1 oraSmall ("t".data) [mkShortComment 1] 7 (by decide),
   pagination_terminates.2.2.2 oraSmall ("t".data) 1 [mkShortComment 1]
     (Page.comments [mkShortComment 1] ("t".data)) (by decide)⟩

/-- Claim C9: every segment produced by the tokenizer `smartSplit` that
contains a wide-script (CJK) character is exactly that single character —
a wide character is never merged into a segment with any neighbour. -/
theorem smartSplit_wide_singleton (t : Text) :
    ∀ s ∈ smartSplit t, ∀ c ∈ s, isChinese c = true → s = [c] := by
  intro s hs
  have hst : StOK (t.foldl spStep ⟨[], [], none⟩) :=
    foldl_spStep_inv t ⟨[], [], none⟩
      ⟨by intro u hu; simp at hu, by intro c hc; simp at hc, by intro c hc; simp at hc⟩
  obtain ⟨hres, hcur, _⟩ := hst
  simp only [smartSplit] at hs
  have hs2 := (List.mem_filter.mp hs).1
  by_cases hb : isBlank (t.foldl spStep ⟨[], [], none⟩).cur = true
  · rw [if_pos hb] at hs2
    exact hres s hs2
  · rw [if_neg hb] at hs2
    rcases List.mem_append.mp hs2 with hm | hm
    · exact hres s hm
    · rw [List.mem_singleton] at hm
      subst hm
      exact hcur

/-- Witness for C9: in `smartSplit "a汉"` the segment containing `汉` is the
singleton `['汉']`. -/
theorem smartSplit_wide_singleton_witness : "汉".data = ['汉'] :=
  smartSplit_wide_singleton ("a汉".data) ("汉".data) (by decide) '汉' (by decide) (by decide)

/-- Claim C10: for every expanded comment queue and arbitrary measurement
results (including throwing measurements and heights defeating every item),
concatenating the comments lists of the emitted `comments` pages in emission
order yields exactly the input queue — the packer, run with the fuel
`paginateComments` gives it, never drops, duplicates, or reorders a comment
or chunk, including along its error-catch and forced-dequeue paths. -/
theorem packer_lossless (o : Oracle) (title : Text) (q : List Comment) :
    flatMapL pageCommentsOf (packLoopF o title q.length q) = q :=
  packLoopF_flatten o title q.length q (le_refl _)

/-! ## Helper lemmas: the fitter fuel bound is exact -/

theorem searchLoopT_mid0 (m : Nat → ℚ) (limit : ℚ) (fuel lo hi best : Nat)
    (h : lo ≤ hi) (hm : (lo + hi) / 2 = 0) :
    searchLoopT m limit (fuel + 1) lo hi best = searchLoopT m limit fuel 1 hi best := by
  rw [searchLoopT, if_pos h, if_pos hm]

theorem searchLoopT_fuel (m : Nat → ℚ) (limit : ℚ) :
    ∀ f g lo hi best, hi + 1 - lo ≤ f → hi + 1 - lo ≤ g →
      searchLoopT m limit f lo hi best = searchLoopT m limit g lo hi best := by
  intro f
  induction f with
  | zero =>
    intro g lo hi best hf hg
    have hstop : ¬ lo ≤ hi := by omega
    rw [searchLoopT_stop m limit 0 lo hi best hstop,
      searchLoopT_stop m limit g lo hi best hstop]
  | succ f ih =>
    intro g lo hi best hf hg
    by_cases hc : lo ≤ hi
    · cases g with
      | zero => omega
      | succ g =>
        by_cases hm : (lo + hi) / 2 = 0
        · rw [searchLoopT_mid0 m limit f lo hi best hc hm,
            searchLoopT_mid0 m limit g lo hi best hc hm]
          exact ih g 1 hi best (by omega) (by omega)
        · rw [searchLoopT_step m limit f lo hi best hc hm,
            searchLoopT_step m limit g lo hi best hc hm]
          by_cases hP : 0 < m ((lo + hi) / 2) ∧ m ((lo + hi) / 2) ≤ limit
          · rw [if_pos hP, if_pos hP]
            exact ih g ((lo + hi) / 2 + 1) hi ((lo + hi) / 2) (by omega) (by omega)
          · rw [if_neg hP, if_neg hP]
            exact ih g lo ((lo + hi) / 2 - 1) best (by omega) (by omega)
    · rw [searchLoopT_stop m limit (f + 1) lo hi best hc,
        searchLoopT_stop m limit g lo hi best hc]

theorem searchLoopO_stop (measure : Nat → Option ℚ) (limit : ℚ)
    (fuel lo hi best : Nat) (h : ¬ lo ≤ hi) :
    searchLoopO measure limit fuel lo hi best = some best := by
  cases fuel with
  | zero => rfl
  | succ fuel => rw [searchLoopO, if_neg h]

theorem searchLoopO_mid0 (measure : Nat → Option ℚ) (limit : ℚ)
    (fuel lo hi best : Nat) (h : lo ≤ hi) (hm : (lo + hi) / 2 = 0) :
    searchLoopO measure limit (fuel + 1) lo hi best =
      searchLoopO measure limit fuel 1 hi best := by
  rw [searchLoopO, if_pos h, if_pos hm]

theorem searchLoopO_step_none (measure : Nat → Option ℚ) (limit : ℚ)
    (fuel lo hi best : Nat) (h : lo ≤ hi) (hm : ¬ (lo + hi) / 2 = 0)
    (hmm : measure ((lo + hi) / 2) = none) :
    searchLoopO measure limit (fuel + 1) lo hi best = none := by
  simp only [searchLoopO, hmm]
  rw [if_pos h, if_neg hm]

theorem searchLoopO_step_some (measure : Nat → Option ℚ) (limit : ℚ)
    (fuel lo hi best : Nat) (ht : ℚ) (h : lo ≤ hi) (hm : ¬ (lo + hi) / 2 = 0)
    (hmm : measure ((lo + hi) / 2) = some ht) :
    searchLoopO measure limit (fuel + 1) lo hi best =
      if 0 < ht ∧ ht ≤ limit then
        searchLoopO measure limit fuel ((lo + hi) / 2 + 1) hi ((lo + hi) / 2)
      else searchLoopO measure limit fuel lo ((lo + hi) / 2 - 1) best := by
  simp only [searchLoopO, hmm]
  rw [if_pos h, if_neg hm]

theorem searchLoopO_fuel (measure : Nat → Option ℚ) (limit : ℚ) :
    ∀ f g lo hi best, hi + 1 - lo ≤ f → hi + 1 - lo ≤ g →
      searchLoopO measure limit f lo hi best = searchLoopO measure limit g lo hi best := by
  intro f
  induction f with
  | zero =>
    intro g lo hi best hf hg
    have hstop : ¬ lo ≤ hi := by omega
    rw [searchLoopO_stop measure limit 0 lo hi best hstop,
      searchLoopO_stop measure limit g lo hi best hstop]
  | succ f ih =>
    intro g lo hi best hf hg
    by_cases hc : lo ≤ hi
    · cases g with
      | zero => omega
      | succ g =>
        by_cases hm : (lo + hi) / 2 = 0
        · rw [searchLoopO_mid0 measure limit f lo hi best hc hm,
            searchLoopO_mid0 measure limit g lo hi best hc hm]
          exact ih g 1 hi best (by omega) (by omega)
        · cases hmm : measure ((lo + hi) / 2) with
          | none =>
            rw [searchLoopO_step_none measure limit f lo hi best hc hm hmm,
              searchLoopO_step_none measure limit g lo hi best hc hm hmm]
          | some ht =>
            rw [searchLoopO_step_some measure limit f lo hi best ht hc hm hmm,
              searchLoopO_step_some measure limit g lo hi best ht hc hm hmm]
            by_cases hP : 0 < ht ∧ ht ≤ limit
            · rw [if_pos hP, if_pos hP]
              exact ih g ((lo + hi) / 2 + 1) hi ((lo + hi) / 2) (by omega) (by omega)
            · rw [if_neg hP, if_neg hP]
              exact ih g lo ((lo + hi) / 2 - 1) best (by omega) (by omega)
    · rw [searchLoopO_stop measure limit (f + 1) lo hi best hc,
        searchLoopO_stop measure limit g lo hi best hc]
